import Mathlib

/-!
# Fluke IS2 to PNG converter: embedding and verified properties

Shallow embedding of `fluke2png.c` (and of its near-duplicate `main.c`):

* memory holding a `uint16_t` array is a list of two-byte cells in address order;
  the host byte order is a parameter, so `ntohs`/`htons` are modelled for both
  little-endian and big-endian hosts;
* binary32 arithmetic is modelled exactly: a finite magnitude is a natural number of
  units of `2^-149` (every finite binary32 value is such a multiple), results of
  division and multiplication are rounded to nearest, ties to even, to 24 significant
  bits (each operation is evaluated in binary32, `FLT_EVAL_METHOD` 0), division by zero
  follows IEEE 754, and conversion to `uint16_t` truncates and is undefined out of range;
* undefined behaviour (out-of-bounds access, out-of-range float to integer
  conversion) is the result `none`;
* `exit(1)` is an early result carrying the status;
* loop counters and sizes are natural numbers: the C counters are `int`, so the
  embedding describes buffers whose dimensions fit in an `int`, as the driver's
  fixed 160 x 120 does; `malloc` is taken to succeed.
-/

namespace Fluke

/-! ## Bytes, cells and byte order -/

/-- One octet of memory or of a file. -/
abbrev Byte := Fin 256

/-- Object representation of one `uint16_t`: its two bytes in address order. -/
abbrev Cell := Byte × Byte

/-- Byte order of the machine the program runs on. -/
inductive Endian where
  | little
  | big
deriving DecidableEq, Repr

/-- The constant `UINT16_MAX` of `stdint.h`. -/
def UINT16_MAX : Nat := 65535

/-- Reading `data[pos]`: the value of the `uint16_t` object stored in a cell. -/
def load16 (host : Endian) (c : Cell) : Nat :=
  match host with
  | Endian.little => c.1.val + 256 * c.2.val
  | Endian.big => 256 * c.1.val + c.2.val

/-- Writing a `uint16_t` value (taken modulo `2^16`) into a cell. -/
def store16 (host : Endian) (v : Nat) : Cell :=
  match host with
  | Endian.little =>
      (⟨v % 256, Nat.mod_lt _ (by decide)⟩, ⟨v / 256 % 256, Nat.mod_lt _ (by decide)⟩)
  | Endian.big =>
      (⟨v / 256 % 256, Nat.mod_lt _ (by decide)⟩, ⟨v % 256, Nat.mod_lt _ (by decide)⟩)

/-- Exchange of the two bytes of a 16-bit value. -/
def bswap16 (v : Nat) : Nat := v % 256 * 256 + v / 256 % 256

/-- The function `ntohs` of `arpa/inet.h`: network (big-endian) to host order. -/
def ntohs (host : Endian) (v : Nat) : Nat :=
  match host with
  | Endian.little => bswap16 v
  | Endian.big => v % 65536

/-- The function `htons` of `arpa/inet.h`: host to network (big-endian) order. -/
def htons (host : Endian) (v : Nat) : Nat :=
  match host with
  | Endian.little => bswap16 v
  | Endian.big => v % 65536

/-- Value of a cell read as a big-endian 16-bit sample (the wire format). -/
def decodeBE (c : Cell) : Nat := 256 * c.1.val + c.2.val

/-- Cell holding the big-endian encoding of a value (taken modulo `2^16`). -/
def encodeBE (v : Nat) : Cell :=
  (⟨v / 256 % 256, Nat.mod_lt _ (by decide)⟩, ⟨v % 256, Nat.mod_lt _ (by decide)⟩)

/-- The bytes of an array of cells, in address order. -/
def bytesOf : List Cell → List Byte
  | [] => []
  | c :: cs => c.1 :: c.2 :: bytesOf cs

/-- A byte buffer viewed as an array of `uint16_t` (the cast `uint16_t *imgdata`). -/
def cellsOf : List Byte → List Cell
  | a :: b :: rest => (a, b) :: cellsOf rest
  | _ => []

/-- Conversion of an `int` to `uint16_t`: reduction modulo `2^16`. -/
def wrap16 (i : Int) : Nat := (i % 65536).toNat

/-! ## Loops -/

/-- The loop `for (i = 0; i < n; i++) body`, threading a state; `none` is undefined
behaviour inside the body. -/
def forLoop {σ : Type} : Nat → (Nat → σ → Option σ) → σ → Option σ
  | 0, _, s => some s
  | n + 1, body, s => (forLoop n body s).bind (body n)

/-! ## binary32 arithmetic -/

/-- Nearest integer to `num / den`, ties to even. -/
def roundNE (num den : Nat) : Nat :=
  let q := num / den
  let r := num % den
  if 2 * r < den then q
  else if den < 2 * r then q + 1
  else if q % 2 = 0 then q else q + 1

/-- Number of halvings needed to bring `q` below `2^24`. -/
def shiftAux : Nat → Nat → Nat
  | 0, _ => 0
  | fuel + 1, q => if q < 2 ^ 24 then 0 else shiftAux fuel (q / 2) + 1

/-- Exponent of the quantum, in units of `2^-149`, of the binade containing `q`
units: `0` for subnormals and the first normal binade. -/
def shiftOf (q : Nat) : Nat := shiftAux q q

/-- Rounding of the exact magnitude `num / den` (in units of `2^-149`) to 24
significant bits, nearest with ties to even. -/
def roundMag (num den : Nat) : Nat :=
  let j := shiftOf (num / den)
  roundNE num (den * 2 ^ j) * 2 ^ j

/-- A binary32 datum; the magnitude of a finite one is `n * 2^-149`. -/
inductive F32 where
  | fin (neg : Bool) (n : Nat)
  | inf (neg : Bool)
  | nan
deriving DecidableEq, Repr

namespace F32

/-- Number of units `2^-149` in `1.0`. -/
def one : Nat := 2 ^ 149

/-- First magnitude, in units, beyond the finite range: `2^128`. -/
def overflow : Nat := 2 ^ 149 * 2 ^ 128

/-- The binary32 nearest to `± num / den` units, overflowing to infinity. -/
def ofRat (neg : Bool) (num den : Nat) : F32 :=
  let n := roundMag num den
  if overflow ≤ n then inf neg else fin neg n

/-- Conversion `(float) i` of an integer. -/
def ofInt (i : Int) : F32 := ofRat (decide (i < 0)) (i.natAbs * one) 1

/-- Division `a / b`. -/
def div : F32 → F32 → F32
  | nan, _ => nan
  | _, nan => nan
  | inf _, inf _ => nan
  | inf s, fin t _ => inf (xor s t)
  | fin s _, inf t => fin (xor s t) 0
  | fin s a, fin t b =>
      if b = 0 then (if a = 0 then nan else inf (xor s t))
      else ofRat (xor s t) (a * one) b

/-- Multiplication `a * b`. -/
def mul : F32 → F32 → F32
  | nan, _ => nan
  | _, nan => nan
  | inf s, inf t => inf (xor s t)
  | inf s, fin t b => if b = 0 then nan else inf (xor s t)
  | fin s a, inf t => if a = 0 then nan else inf (xor s t)
  | fin s a, fin t b => ofRat (xor s t) (a * b) one

/-- Conversion to `uint16_t`: the fraction is discarded; undefined when the
integral part is not representable, and for infinities and NaN. -/
def toUInt16 : F32 → Option Nat
  | fin neg n =>
      let t := n / one
      if t = 0 then some 0
      else if neg then none
      else if t < 65536 then some t else none
  | inf _ => none
  | nan => none

end F32

/-! ## The extrema scan and the range adjustment -/

/-- Minimal and maximal pixel value (`struct extrema`, `struct ares`). -/
structure extrema where
  min : Nat
  max : Nat
deriving DecidableEq, Repr

/-- The two statements `if (vl < min) min = vl; if (vl > max) max = vl;`. -/
def updateExtrema (s : extrema) (vl : Nat) : extrema :=
  let min := if vl < s.min then vl else s.min
  let max := if vl > s.max then vl else s.max
  ⟨min, max⟩

/-- Body of the inner loop of `findMinMax` at index `pos`. -/
def scanStep (host : Endian) (data : List Cell) (pos : Nat) (s : extrema) : Option extrema :=
  match data[pos]? with
  | none => none
  | some px =>
      let vl := ntohs host (load16 host px)
      some (updateExtrema s vl)

/-- The function `findMinMax` of `fluke2png.c`; the result is what it stores in `res`. -/
def findMinMax (host : Endian) (data : List Cell) (width height : Nat) : Option extrema :=
  forLoop height
    (fun y s => forLoop width (fun x s => scanStep host data (y * width + x) s) s)
    ⟨UINT16_MAX, 0⟩

/-- The function `analyze` of `main.c`, the same scan. -/
def analyze (host : Endian) (data : List Cell) (width height : Nat) : Option extrema :=
  forLoop height
    (fun y s => forLoop width (fun x s => scanStep host data (y * width + x) s) s)
    ⟨UINT16_MAX, 0⟩

/-- The value `range`: the `int` difference `max - min` converted to `float`. -/
def rangeOf (res : extrema) : F32 := F32.ofInt ((res.max : Int) - (res.min : Int))

/-- The value `scale = ((float)UINT16_MAX) / range`. -/
def scaleOf (res : extrema) : F32 := F32.div (F32.ofInt (UINT16_MAX : Nat)) (rangeOf res)

/-- The statements `vl = ntohs(px); vl -= res->min; vl *= scale;` for one pixel. -/
def adjustValue (host : Endian) (res : extrema) (scale : F32) (px : Cell) : Option Nat :=
  let vl := ntohs host (load16 host px)
  let vl := wrap16 ((vl : Int) - (res.min : Int))
  F32.toUInt16 (F32.mul (F32.ofInt (vl : Nat)) scale)

/-- Body of the inner loop of `adjustMinMax` at index `pos`. -/
def adjustStep (host : Endian) (res : extrema) (scale : F32) (pos : Nat) (data : List Cell) :
    Option (List Cell) :=
  match data[pos]? with
  | none => none
  | some px =>
      match adjustValue host res scale px with
      | none => none
      | some vl => some (data.set pos (store16 host (htons host vl)))

/-- The function `adjustMinMax` of `fluke2png.c`; the result is the buffer after the
in-place update. -/
def adjustMinMax (host : Endian) (res : extrema) (data : List Cell) (width height : Nat) :
    Option (List Cell) :=
  let scale := scaleOf res
  forLoop height
    (fun y d => forLoop width (fun x d => adjustStep host res scale (y * width + x) d) d)
    data

/-- The function `fumble` of `main.c`, the same adjustment. -/
def fumble (host : Endian) (res : extrema) (data : List Cell) (width height : Nat) :
    Option (List Cell) :=
  let scale := scaleOf res
  forLoop height
    (fun y d => forLoop width (fun x d => adjustStep host res scale (y * width + x) d) d)
    data

/-! ## Reading the container -/

/-- An input stream: the bytes not yet consumed, and, when the device fails, the
number of further bytes it still delivers before the error. -/
structure FILE where
  rest : List Byte
  fault : Option Nat

/-- The call `fread(res, 1, size, in)`: the bytes delivered and the stream afterwards. -/
def fread (inp : FILE) (size : Nat) : List Byte × FILE :=
  let avail := match inp.fault with
    | none => inp.rest.length
    | some k => Nat.min k inp.rest.length
  let rd := Nat.min size avail
  (inp.rest.take rd, ⟨inp.rest.drop rd, inp.fault.map (fun k => k - rd)⟩)

/-- Result of a call that may terminate the process with `exit(status)`. -/
inductive Run (α : Type) where
  | exit (status : Nat)
  | ret (value : α)

/-- The function `readblob`: the buffer handed back to the caller and the stream
afterwards, or `exit(1)` when fewer than `size` bytes were read. -/
def readblob (inp : FILE) (size : Nat) : Run (List Byte × FILE) :=
  let r := fread inp size
  if r.1.length ≠ size then Run.exit 1 else Run.ret (r.1, r.2)

/-! ## Writing the image -/

/-- The constant `PNG_COLOR_TYPE_GRAY` of libpng. -/
def PNG_COLOR_TYPE_GRAY : Nat := 0

/-- The constant `PNG_INTERLACE_NONE` of libpng. -/
def PNG_INTERLACE_NONE : Nat := 0

/-- The constant `PNG_COMPRESSION_TYPE_DEFAULT` of libpng. -/
def PNG_COMPRESSION_TYPE_DEFAULT : Nat := 0

/-- The constant `PNG_FILTER_TYPE_DEFAULT` of libpng. -/
def PNG_FILTER_TYPE_DEFAULT : Nat := 0

/-- How the file system and libpng answer during one call of `writepng`. -/
structure PngEnv where
  /-- Whether `fopen(fname, "wb")` returns a stream. -/
  fopenOk : Bool
  /-- Whether `png_create_write_struct` returns a structure. -/
  writeStructOk : Bool
  /-- Whether `png_create_info_struct` returns a structure. -/
  infoStructOk : Bool
  /-- Whether libpng raises an error from `png_set_IHDR` or `png_malloc`, before any row
  is copied. -/
  buildError : Bool
  /-- Whether libpng raises an error from `png_write_png`. -/
  writeError : Bool

/-- Arguments of `png_set_IHDR`. -/
structure ImageHeader where
  width : Nat
  height : Nat
  bitDepth : Nat
  colorType : Nat
  interlace : Nat
  compression : Nat
  filter : Nat
deriving DecidableEq, Repr

/-- What `writepng` hands to the encoder: the header and the row buffers. -/
structure PngCall where
  header : ImageHeader
  rows : List (List Byte)
deriving DecidableEq, Repr

/-- Outcome of `writepng`: its return value, whether the destination was opened
for writing (created or truncated), and what reached `png_write_png`. -/
structure PngResult where
  ret : Int
  created : Bool
  handed : Option PngCall
deriving DecidableEq, Repr

/-- One iteration of the row loop: `memcpy(row_pointers[i], &data[i * width], width * 2)`;
the rows are stored at the consecutive indices `0, 1, ...`. Reading past the end of
`data` is undefined. -/
def rowStep (data : List Cell) (width : Nat) (i : Nat) (rows : List (List Byte)) :
    Option (List (List Byte)) :=
  if i * width + width ≤ data.length then
    some (rows ++ [bytesOf ((data.drop (i * width)).take width)])
  else none

/-- The function `writepng`. -/
def writepng (env : PngEnv) (data : List Cell) (width height : Nat) : Option PngResult :=
  if !env.fopenOk then some ⟨-1, false, none⟩
  else if !env.writeStructOk then some ⟨-1, true, none⟩
  else if !env.infoStructOk then some ⟨-1, true, none⟩
  else if env.buildError then some ⟨-1, true, none⟩
  else
    let header : ImageHeader :=
      ⟨width, height, 16, PNG_COLOR_TYPE_GRAY, PNG_INTERLACE_NONE,
        PNG_COMPRESSION_TYPE_DEFAULT, PNG_FILTER_TYPE_DEFAULT⟩
    match forLoop height (rowStep data width) [] with
    | none => none
    | some rows =>
        if env.writeError then some ⟨-1, true, some ⟨header, rows⟩⟩
        else some ⟨0, true, some ⟨header, rows⟩⟩

/-! ## The driver -/

/-- The place where `main` stopped. -/
inductive Stage where
  | usage
  | openInput
  | readHeader
  | readImage
  | finished
deriving DecidableEq, Repr

/-- Observable outcome of one run of `main`: the exit status, where it stopped, and
the outcome of the call of `writepng` when that call was made. -/
structure Outcome where
  status : Nat
  stage : Stage
  png : Option PngResult
deriving DecidableEq, Repr

/-- The function `main`: `argc` is the argument count, `input` the stream obtained by
`fopen(argv[1], "rb")` (`none` when it fails). -/
def main (host : Endian) (argc : Nat) (input : Option FILE) (env : PngEnv) : Option Outcome :=
  if argc ≠ 3 then some ⟨1, Stage.usage, none⟩
  else
    match input with
    | none => some ⟨1, Stage.openInput, none⟩
    | some inp =>
        match readblob inp 366 with
        | Run.exit st => some ⟨st, Stage.readHeader, none⟩
        | Run.ret (_, inp1) =>
            match readblob inp1 (160 * 120 * 2) with
            | Run.exit st => some ⟨st, Stage.readImage, none⟩
            | Run.ret (imgbytes, _) =>
                let imgdata := cellsOf imgbytes
                match findMinMax host imgdata 160 120 with
                | none => none
                | some ar =>
                    match adjustMinMax host ar imgdata 160 120 with
                    | none => none
                    | some imgdata =>
                        match writepng env imgdata 160 120 with
                        | none => none
                        | some r => some ⟨0, Stage.finished, some r⟩

/-! ## Auxiliary closed forms -/

/-- Rounding to the nearest integer, halves away from zero, as the specification's
`round`. -/
def specRound (num den : Nat) : Nat := (2 * num + den) / (2 * den)

/-- Magnitude, in units of `2^-149`, of the scale factor `65535.0f / (float) r`. -/
def scaleMag (r : Nat) : Nat := roundMag (65535 * F32.one * F32.one) (r * F32.one)

/-- Magnitude, in units of `2^-149`, of the product `(float) d * scale` for range `r`. -/
def prodMag (r d : Nat) : Nat := roundMag (d * F32.one * scaleMag r) F32.one

/-- Integral part of the product `(float) d * scale` for range `r`. -/
def scaled (r d : Nat) : Nat := prodMag r d / F32.one

/-! ## Properties of the rounding functions -/

theorem roundNE_floor_le (n d : Nat) : n / d ≤ roundNE n d := by
  unfold roundNE
  simp only
  split_ifs <;> omega

theorem roundNE_le_succ (n d : Nat) : roundNE n d ≤ n / d + 1 := by
  unfold roundNE
  simp only
  split_ifs <;> omega

theorem roundNE_exact (k d : Nat) (hd : 0 < d) : roundNE (k * d) d = k := by
  unfold roundNE
  have h1 : k * d / d = k := Nat.mul_div_cancel k hd
  have h2 : k * d % d = 0 := Nat.mul_mod_left k d
  simp only [h1, h2]
  split_ifs <;> omega

theorem roundNE_mono (n1 n2 d : Nat) (h : n1 ≤ n2) :
    roundNE n1 d ≤ roundNE n2 d := by
  have hq : n1 / d ≤ n2 / d := Nat.div_le_div_right h
  rcases Nat.lt_or_ge (n1 / d) (n2 / d) with hlt | hge
  · calc roundNE n1 d ≤ n1 / d + 1 := roundNE_le_succ n1 d
      _ ≤ n2 / d := hlt
      _ ≤ roundNE n2 d := roundNE_floor_le n2 d
  · have heq : n1 / d = n2 / d := Nat.le_antisymm hq hge
    have e1 := Nat.div_add_mod n1 d
    have e2 := Nat.div_add_mod n2 d
    rw [heq] at e1
    have hr : n1 % d ≤ n2 % d := by omega
    unfold roundNE
    simp only [heq]
    split_ifs <;> omega

theorem roundNE_le_of_le (n d K : Nat) (hd : 0 < d) (h : n ≤ K * d) : roundNE n d ≤ K := by
  have := roundNE_mono n (K * d) d h
  rwa [roundNE_exact K d hd] at this

theorem roundNE_ge_of_ge (n d K : Nat) (hd : 0 < d) (h : K * d ≤ n) : K ≤ roundNE n d := by
  have := roundNE_mono (K * d) n d h
  rwa [roundNE_exact K d hd] at this

/-- The rounded quotient is within half a divisor of the dividend. -/
theorem roundNE_error (n d : Nat) (hd : 0 < d) :
    2 * (roundNE n d * d) ≤ 2 * n + d ∧ 2 * n ≤ 2 * (roundNE n d * d) + d := by
  have e := Nat.div_add_mod n d
  have hr := Nat.mod_lt n hd
  have hm : d * (n / d) = n / d * d := Nat.mul_comm _ _
  unfold roundNE
  simp only
  split_ifs <;> (try simp only [Nat.add_mul, Nat.one_mul]) <;> omega

theorem shiftAux_lt (fuel : Nat) : ∀ q, q ≤ fuel → q < 2 ^ (24 + shiftAux fuel q) := by
  induction fuel with
  | zero => intro q hq; simp [shiftAux]; omega
  | succ f ih =>
    intro q hq
    unfold shiftAux
    split_ifs with h
    · exact h
    · have h24 : 2 ^ 24 ≤ q := Nat.le_of_not_lt h
      have hpos : (16777216 : Nat) = 2 ^ 24 := by norm_num
      have hle : q / 2 ≤ f := by omega
      have := ih (q / 2) hle
      have e : 2 ^ (24 + (shiftAux f (q / 2) + 1)) = 2 * 2 ^ (24 + shiftAux f (q / 2)) := by
        rw [← Nat.add_assoc, Nat.pow_succ, Nat.mul_comm]
      rw [e]
      omega

theorem shiftAux_ge (fuel : Nat) :
    ∀ q, 0 < shiftAux fuel q → 2 ^ (23 + shiftAux fuel q) ≤ q := by
  induction fuel with
  | zero => intro q h; simp [shiftAux] at h
  | succ f ih =>
    intro q
    unfold shiftAux
    split_ifs with h
    · intro h0; omega
    · intro _
      have h24 : 2 ^ 24 ≤ q := Nat.le_of_not_lt h
      rcases Nat.eq_zero_or_pos (shiftAux f (q / 2)) with hz | hp
      · rw [hz]; simpa using h24
      · have := ih (q / 2) hp
        have e : 2 ^ (23 + (shiftAux f (q / 2) + 1)) = 2 * 2 ^ (23 + shiftAux f (q / 2)) := by
          rw [← Nat.add_assoc, Nat.pow_succ, Nat.mul_comm]
        rw [e]
        omega

theorem shiftOf_lt (q : Nat) : q < 2 ^ (24 + shiftOf q) :=
  shiftAux_lt q q (Nat.le_refl q)

theorem shiftOf_ge (q : Nat) (h : 0 < shiftOf q) : 2 ^ (23 + shiftOf q) ≤ q :=
  shiftAux_ge q q h

theorem shiftOf_le_of_lt (q k : Nat) (h : q < 2 ^ (24 + k)) : shiftOf q ≤ k := by
  by_contra hc
  have hk : k < shiftOf q := Nat.lt_of_not_le hc
  have h1 := shiftOf_ge q (by omega)
  have h2 : 2 ^ (24 + k) ≤ 2 ^ (23 + shiftOf q) :=
    Nat.pow_le_pow_right (by decide) (by omega)
  omega

theorem shiftOf_mono (q1 q2 : Nat) (h : q1 ≤ q2) : shiftOf q1 ≤ shiftOf q2 :=
  shiftOf_le_of_lt q1 (shiftOf q2) (Nat.lt_of_le_of_lt h (shiftOf_lt q2))

theorem roundMag_mono (n1 n2 den : Nat) (hden : 0 < den) (h : n1 ≤ n2) :
    roundMag n1 den ≤ roundMag n2 den := by
  have hq : n1 / den ≤ n2 / den := Nat.div_le_div_right h
  have hj := shiftOf_mono _ _ hq
  unfold roundMag
  simp only
  rcases Nat.eq_or_lt_of_le hj with heq | hlt
  · rw [heq]
    exact Nat.mul_le_mul_right _ (roundNE_mono n1 n2 _ h)
  · have hpos1 : 0 < den * 2 ^ shiftOf (n1 / den) := Nat.mul_pos hden (Nat.pow_pos (by decide))
    have hpos2 : 0 < den * 2 ^ shiftOf (n2 / den) := Nat.mul_pos hden (Nat.pow_pos (by decide))
    have hA : roundNE n1 (den * 2 ^ shiftOf (n1 / den)) ≤ 2 ^ 24 := by
      apply roundNE_le_of_le _ _ _ hpos1
      have h1 : n1 < den * (n1 / den + 1) := Nat.lt_mul_div_succ n1 hden
      have h2 : n1 / den + 1 ≤ 2 ^ (24 + shiftOf (n1 / den)) := shiftOf_lt (n1 / den)
      have h3 : den * (n1 / den + 1) ≤ den * 2 ^ (24 + shiftOf (n1 / den)) :=
        Nat.mul_le_mul_left _ h2
      have e : 2 ^ 24 * (den * 2 ^ shiftOf (n1 / den)) = den * 2 ^ (24 + shiftOf (n1 / den)) := by
        rw [pow_add]; ring
      rw [e]
      exact Nat.le_of_lt (Nat.lt_of_lt_of_le h1 h3)
    have hB : 2 ^ 23 ≤ roundNE n2 (den * 2 ^ shiftOf (n2 / den)) := by
      apply roundNE_ge_of_ge _ _ _ hpos2
      have h1 : 2 ^ (23 + shiftOf (n2 / den)) ≤ n2 / den := shiftOf_ge _ (by omega)
      have h2 : den * (n2 / den) ≤ n2 := Nat.mul_div_le n2 den
      have h3 : den * 2 ^ (23 + shiftOf (n2 / den)) ≤ den * (n2 / den) :=
        Nat.mul_le_mul_left _ h1
      have e : 2 ^ 23 * (den * 2 ^ shiftOf (n2 / den)) = den * 2 ^ (23 + shiftOf (n2 / den)) := by
        rw [pow_add]; ring
      rw [e]
      exact Nat.le_trans h3 h2
    calc roundNE n1 (den * 2 ^ shiftOf (n1 / den)) * 2 ^ shiftOf (n1 / den)
        ≤ 2 ^ 24 * 2 ^ shiftOf (n1 / den) := Nat.mul_le_mul_right _ hA
      _ = 2 ^ (24 + shiftOf (n1 / den)) := by rw [pow_add]
      _ ≤ 2 ^ (23 + shiftOf (n2 / den)) := Nat.pow_le_pow_right (by decide) (by omega)
      _ = 2 ^ 23 * 2 ^ shiftOf (n2 / den) := by rw [pow_add]
      _ ≤ roundNE n2 (den * 2 ^ shiftOf (n2 / den)) * 2 ^ shiftOf (n2 / den) :=
          Nat.mul_le_mul_right _ hB

/-- A magnitude with at most 24 significant bits is not changed by rounding. -/
theorem roundMag_exact (m k den : Nat) (hm : m < 2 ^ 24) (hden : 0 < den) :
    roundMag (m * 2 ^ k * den) den = m * 2 ^ k := by
  unfold roundMag
  simp only
  rw [Nat.mul_div_cancel _ hden]
  have hlt : m * 2 ^ k < 2 ^ (24 + k) := by
    rw [pow_add]
    exact Nat.mul_lt_mul_of_pos_right hm (Nat.pow_pos (by decide))
  have hj := shiftOf_le_of_lt _ _ hlt
  obtain ⟨t, ht⟩ := Nat.exists_eq_add_of_le hj
  have e2 : (2 : Nat) ^ k = 2 ^ t * 2 ^ shiftOf (m * 2 ^ k) := by
    conv_lhs => rw [ht]
    rw [pow_add]; ring
  have e3 : m * 2 ^ k * den = m * 2 ^ t * (den * 2 ^ shiftOf (m * 2 ^ k)) := by
    conv_lhs => rw [e2]
    ring
  have hpos : 0 < den * 2 ^ shiftOf (m * 2 ^ k) := Nat.mul_pos hden (Nat.pow_pos (by decide))
  rw [e3, roundNE_exact _ _ hpos]
  conv_rhs => rw [e2]
  ring

/-- Relative error of rounding in the normal range: at most `2^-24`. -/
theorem roundMag_error (num den : Nat) (hden : 0 < den) (hnorm : 2 ^ 23 * den ≤ num) :
    2 ^ 24 * (roundMag num den * den) ≤ 2 ^ 24 * num + num ∧
    2 ^ 24 * num ≤ 2 ^ 24 * (roundMag num den * den) + num := by
  have hpos : 0 < den * 2 ^ shiftOf (num / den) := Nat.mul_pos hden (Nat.pow_pos (by decide))
  have hE := roundNE_error num _ hpos
  have hq : 2 ^ 23 * (den * 2 ^ shiftOf (num / den)) ≤ num := by
    rcases Nat.eq_zero_or_pos (shiftOf (num / den)) with hz | hp
    · rw [hz]; simpa using hnorm
    · have h1 := shiftOf_ge _ hp
      have h2 : den * (num / den) ≤ num := Nat.mul_div_le num den
      have h3 : den * 2 ^ (23 + shiftOf (num / den)) ≤ den * (num / den) :=
        Nat.mul_le_mul_left _ h1
      have e : 2 ^ 23 * (den * 2 ^ shiftOf (num / den))
          = den * 2 ^ (23 + shiftOf (num / den)) := by
        rw [pow_add]; ring
      rw [e]
      exact Nat.le_trans h3 h2
  have e : roundMag num den * den
      = roundNE num (den * 2 ^ shiftOf (num / den)) * (den * 2 ^ shiftOf (num / den)) := by
    unfold roundMag
    simp only
    ring
  rw [e]
  generalize roundNE num (den * 2 ^ shiftOf (num / den)) * (den * 2 ^ shiftOf (num / den)) = X
    at hE ⊢
  generalize den * 2 ^ shiftOf (num / den) = D at hE hq
  norm_num at hq ⊢
  omega

/-! ## The scale factor and the scaled values -/

theorem one_pos : 0 < F32.one := Nat.pow_pos (by decide)

theorem one_eq : F32.one = 2 ^ 149 := rfl

theorem overflow_eq : F32.overflow = F32.one * 2 ^ 128 := rfl

theorem lt_overflow (n : Nat) (h : n ≤ 65537 * F32.one) : ¬ F32.overflow ≤ n := by
  rw [overflow_eq]
  have h1 : 65537 * F32.one < F32.one * 2 ^ 128 := by
    rw [Nat.mul_comm]
    exact Nat.mul_lt_mul_of_pos_left (by norm_num) one_pos
  omega

theorem ofInt_natCast (d : Nat) (h : d < 65537) :
    F32.ofInt (d : Int) = F32.fin false (d * F32.one) := by
  have hr : roundMag (d * F32.one) 1 = d * F32.one := by
    have := roundMag_exact d 149 1 (by omega) (by decide)
    rw [one_eq]
    simpa using this
  have hlt : d * F32.one ≤ 65537 * F32.one := Nat.mul_le_mul_right _ (by omega)
  unfold F32.ofInt F32.ofRat
  simp only [Int.natAbs_ofNat, hr, lt_overflow _ hlt, if_false]
  simp

theorem scaleMag_error (r : Nat) (hr : 0 < r) (hr2 : r ≤ 65535) :
    2 ^ 24 * (scaleMag r * r) ≤ 2 ^ 24 * (65535 * F32.one) + 65535 * F32.one ∧
    2 ^ 24 * (65535 * F32.one) ≤ 2 ^ 24 * (scaleMag r * r) + 65535 * F32.one := by
  have hden : 0 < r * F32.one := Nat.mul_pos hr one_pos
  have h23 : 2 ^ 23 ≤ F32.one := by
    rw [one_eq]; exact Nat.pow_le_pow_right (by decide) (by decide)
  have hnorm : 2 ^ 23 * (r * F32.one) ≤ 65535 * F32.one * F32.one := by
    have h1 : 2 ^ 23 * r ≤ 65535 * F32.one := by
      calc 2 ^ 23 * r ≤ 2 ^ 23 * 65535 := Nat.mul_le_mul_left _ hr2
        _ = 65535 * 2 ^ 23 := Nat.mul_comm _ _
        _ ≤ 65535 * F32.one := Nat.mul_le_mul_left _ h23
    calc 2 ^ 23 * (r * F32.one) = 2 ^ 23 * r * F32.one := by ring
      _ ≤ 65535 * F32.one * F32.one := Nat.mul_le_mul_right _ h1
  have hE := roundMag_error _ _ hden hnorm
  have e1 : 2 ^ 24 * (roundMag (65535 * F32.one * F32.one) (r * F32.one) * (r * F32.one))
      = 2 ^ 24 * (scaleMag r * r) * F32.one := by
    unfold scaleMag; ring
  have e2 : 2 ^ 24 * (65535 * F32.one * F32.one) + 65535 * F32.one * F32.one
      = (2 ^ 24 * (65535 * F32.one) + 65535 * F32.one) * F32.one := by ring
  have e3 : 2 ^ 24 * (65535 * F32.one * F32.one) = 2 ^ 24 * (65535 * F32.one) * F32.one := by
    ring
  have e4 : 2 ^ 24 * (scaleMag r * r) * F32.one + 65535 * F32.one * F32.one
      = (2 ^ 24 * (scaleMag r * r) + 65535 * F32.one) * F32.one := by ring
  rw [e1, e2, e3, e4] at hE
  exact ⟨Nat.le_of_mul_le_mul_right hE.1 one_pos, Nat.le_of_mul_le_mul_right hE.2 one_pos⟩

theorem scaleMag_le (r : Nat) (hr : 0 < r) (hr2 : r ≤ 65535) :
    scaleMag r ≤ 65537 * F32.one := by
  have hE := (scaleMag_error r hr hr2).1
  have h1 : scaleMag r ≤ scaleMag r * r := Nat.le_mul_of_pos_right _ hr
  generalize scaleMag r * r = X at hE h1
  generalize F32.one = O at hE ⊢
  norm_num at hE
  omega

theorem prodMag_mono (r d1 d2 : Nat) (h : d1 ≤ d2) : prodMag r d1 ≤ prodMag r d2 := by
  unfold prodMag
  apply roundMag_mono _ _ _ one_pos
  exact Nat.mul_le_mul_right _ (Nat.mul_le_mul_right _ h)

theorem prodMag_zero (r : Nat) : prodMag r 0 = 0 := by
  unfold prodMag
  have := roundMag_exact 0 0 F32.one (by decide) one_pos
  simpa using this

theorem prodMag_top_ge (r : Nat) (hr : 0 < r) (hr2 : r ≤ 65535) :
    65534 * F32.one ≤ prodMag r r := by
  have hE := (scaleMag_error r hr hr2).2
  have hx : 65534 * F32.one ≤ scaleMag r * r := by
    generalize scaleMag r * r = X at hE
    generalize F32.one = O at hE ⊢
    norm_num at hE
    omega
  have hex := roundMag_exact 65534 149 F32.one (by norm_num) one_pos
  rw [← one_eq] at hex
  have hm := roundMag_mono (65534 * F32.one * F32.one) (r * F32.one * scaleMag r) F32.one one_pos
    (by
      calc 65534 * F32.one * F32.one ≤ scaleMag r * r * F32.one := Nat.mul_le_mul_right _ hx
        _ = r * F32.one * scaleMag r := by ring)
  rw [hex] at hm
  exact hm

theorem prodMag_top_le (r : Nat) (hr : 0 < r) (hr2 : r ≤ 65535) :
    prodMag r r ≤ 131071 * 2 ^ 148 := by
  have hE := (scaleMag_error r hr hr2).1
  have ho : F32.one = 2 * 2 ^ 148 := by rw [one_eq]; rfl
  have hx : scaleMag r * r ≤ 131071 * 2 ^ 148 := by
    generalize scaleMag r * r = X at hE
    rw [ho] at hE
    generalize (2 : Nat) ^ 148 = H at hE ⊢
    norm_num at hE
    omega
  have hex := roundMag_exact 131071 148 F32.one (by norm_num) one_pos
  have hm := roundMag_mono (r * F32.one * scaleMag r) (131071 * 2 ^ 148 * F32.one) F32.one one_pos
    (by
      calc r * F32.one * scaleMag r = scaleMag r * r * F32.one := by ring
        _ ≤ 131071 * 2 ^ 148 * F32.one := Nat.mul_le_mul_right _ hx)
  rw [hex] at hm
  exact hm

theorem prodMag_le (r d : Nat) (hr : 0 < r) (hr2 : r ≤ 65535) (hd : d ≤ r) :
    prodMag r d ≤ 131071 * 2 ^ 148 :=
  Nat.le_trans (prodMag_mono r d r hd) (prodMag_top_le r hr hr2)

theorem scaled_mono (r d1 d2 : Nat) (h : d1 ≤ d2) : scaled r d1 ≤ scaled r d2 :=
  Nat.div_le_div_right (prodMag_mono r d1 d2 h)

theorem scaled_zero (r : Nat) : scaled r 0 = 0 := by
  unfold scaled
  rw [prodMag_zero]
  exact Nat.zero_div _

theorem scaled_le (r d : Nat) (hr : 0 < r) (hr2 : r ≤ 65535) (hd : d ≤ r) :
    scaled r d ≤ 65535 := by
  have h := prodMag_le r d hr hr2 hd
  have ho : F32.one = 2 * 2 ^ 148 := by rw [one_eq]; rfl
  unfold scaled
  have : prodMag r d / F32.one < 65536 := by
    rw [Nat.div_lt_iff_lt_mul one_pos, ho]
    have hH : 0 < (2 : Nat) ^ 148 := Nat.pow_pos (by decide)
    generalize (2 : Nat) ^ 148 = H at h hH ⊢
    omega
  omega

theorem scaled_top_ge (r : Nat) (hr : 0 < r) (hr2 : r ≤ 65535) : 65534 ≤ scaled r r := by
  unfold scaled
  rw [Nat.le_div_iff_mul_le one_pos]
  exact prodMag_top_ge r hr hr2

/-! ## Byte order -/

theorem decodeBE_lt (c : Cell) : decodeBE c < 65536 := by
  have h1 := c.1.isLt
  have h2 := c.2.isLt
  unfold decodeBE
  omega

theorem ntohs_load16 (host : Endian) (c : Cell) : ntohs host (load16 host c) = decodeBE c := by
  have h1 := c.1.isLt
  have h2 := c.2.isLt
  cases host <;> simp only [ntohs, load16, bswap16, decodeBE] <;> omega

theorem store16_htons (host : Endian) (t : Nat) (h : t < 65536) :
    store16 host (htons host t) = encodeBE t := by
  have h1 : t / 256 < 256 := by omega
  have h2 : t / 256 % 256 = t / 256 := Nat.mod_eq_of_lt h1
  have h3 : (t % 256 * 256 + t / 256) / 256 = t % 256 := by omega
  have h4 : (t % 256 * 256 + t / 256) % 256 = t / 256 := by omega
  have h5 : t % 256 % 256 = t % 256 := by omega
  have h6 : t % 65536 = t := Nat.mod_eq_of_lt h
  cases host <;>
    simp only [store16, htons, bswap16, encodeBE, Prod.mk.injEq, Fin.mk.injEq, h2, h3, h4, h5,
      h6, and_self]

theorem decodeBE_encodeBE (t : Nat) (h : t < 65536) : decodeBE (encodeBE t) = t := by
  simp only [decodeBE, encodeBE]
  omega

theorem encodeBE_decodeBE (c : Cell) : encodeBE (decodeBE c) = c := by
  have h1 := c.1.isLt
  have h2 := c.2.isLt
  obtain ⟨a, b⟩ := c
  simp only [decodeBE, encodeBE, Prod.mk.injEq]
  constructor <;> apply Fin.ext <;> simp only <;> omega

theorem wrap16_sub (v m : Nat) (hm : m ≤ v) (hv : v < 65536) :
    wrap16 ((v : Int) - (m : Int)) = v - m := by
  unfold wrap16
  omega

/-! ## One pixel of the adjustment -/

theorem rangeOf_eq (res : extrema) (h : res.min ≤ res.max) (hmax : res.max ≤ 65535) :
    rangeOf res = F32.fin false ((res.max - res.min) * F32.one) := by
  unfold rangeOf
  rw [← Int.ofNat_sub h]
  exact ofInt_natCast _ (by omega)

theorem scaleOf_eq (res : extrema) (h : res.min < res.max) (hmax : res.max ≤ 65535) :
    scaleOf res = F32.fin false (scaleMag (res.max - res.min)) := by
  have hr : 0 < res.max - res.min := by omega
  have hne : ¬ ((res.max - res.min) * F32.one = 0) :=
    Nat.pos_iff_ne_zero.mp (Nat.mul_pos hr one_pos)
  have hS := scaleMag_le (res.max - res.min) hr (by omega)
  unfold scaleOf
  rw [rangeOf_eq res (Nat.le_of_lt h) hmax]
  have h65 : F32.ofInt ((UINT16_MAX : Nat) : Int) = F32.fin false (65535 * F32.one) :=
    ofInt_natCast 65535 (by decide)
  rw [h65]
  simp only [F32.div, hne, if_false, F32.ofRat, Bool.xor_self]
  have : roundMag (65535 * F32.one * F32.one) ((res.max - res.min) * F32.one)
      = scaleMag (res.max - res.min) := rfl
  rw [this]
  simp only [lt_overflow _ hS, if_false]

/-- In a flat image the divisor is zero and the scale factor is `+inf`. -/
theorem scaleOf_flat (res : extrema) (h : res.min = res.max) (hmax : res.max ≤ 65535) :
    scaleOf res = F32.inf false := by
  unfold scaleOf
  rw [rangeOf_eq res (Nat.le_of_eq h) hmax]
  have h65 : F32.ofInt ((UINT16_MAX : Nat) : Int) = F32.fin false (65535 * F32.one) :=
    ofInt_natCast 65535 (by decide)
  have hne : ¬ (65535 * F32.one = 0) :=
    Nat.pos_iff_ne_zero.mp (Nat.mul_pos (by decide) one_pos)
  rw [h65, h, Nat.sub_self, Nat.zero_mul]
  simp [F32.div, hne]

theorem adjustValue_eq (host : Endian) (res : extrema) (px : Cell)
    (h : res.min < res.max) (hmax : res.max ≤ 65535)
    (hlo : res.min ≤ decodeBE px) (hhi : decodeBE px ≤ res.max) :
    adjustValue host res (scaleOf res) px
      = some (scaled (res.max - res.min) (decodeBE px - res.min)) := by
  have hr : 0 < res.max - res.min := by omega
  have hd : decodeBE px - res.min ≤ res.max - res.min := by omega
  have hP := prodMag_le (res.max - res.min) (decodeBE px - res.min) hr (by omega) hd
  have hT := scaled_le (res.max - res.min) (decodeBE px - res.min) hr (by omega) hd
  have hov : ¬ F32.overflow ≤ prodMag (res.max - res.min) (decodeBE px - res.min) := by
    apply lt_overflow
    have ho : F32.one = 2 * 2 ^ 148 := by rw [one_eq]; rfl
    rw [ho]
    generalize (2 : Nat) ^ 148 = H at hP ⊢
    omega
  unfold adjustValue
  simp only
  rw [ntohs_load16, wrap16_sub _ _ hlo (decodeBE_lt px), scaleOf_eq res h hmax,
    ofInt_natCast _ (by omega)]
  simp only [F32.mul, F32.ofRat, Bool.xor_self]
  have : roundMag ((decodeBE px - res.min) * F32.one * scaleMag (res.max - res.min)) F32.one
      = prodMag (res.max - res.min) (decodeBE px - res.min) := rfl
  rw [this]
  simp only [hov, if_false, F32.toUInt16]
  have e : prodMag (res.max - res.min) (decodeBE px - res.min) / F32.one
      = scaled (res.max - res.min) (decodeBE px - res.min) := rfl
  rw [e]
  have hlt : scaled (res.max - res.min) (decodeBE px - res.min) < 65536 := by omega
  by_cases h0 : scaled (res.max - res.min) (decodeBE px - res.min) = 0
  · simp [h0]
  · simp [h0, hlt]

/-- In a flat image every pixel's conversion is undefined: the product is NaN. -/
theorem adjustValue_flat (host : Endian) (res : extrema) (px : Cell)
    (h : res.min = res.max) (hmax : res.max ≤ 65535) :
    adjustValue host res (scaleOf res) px = none := by
  unfold adjustValue
  simp only
  rw [scaleOf_flat res h hmax]
  have hw : wrap16 ((ntohs host (load16 host px) : Int) - (res.min : Int)) < 65537 := by
    unfold wrap16
    omega
  rw [ofInt_natCast _ hw]
  simp only [F32.mul]
  split_ifs <;> rfl

/-! ## Loops: from nested counters to a single pass over the positions -/

theorem forLoop_add {σ : Type} (f : Nat → σ → Option σ) (a b : Nat) (s : σ) :
    forLoop (a + b) f s = (forLoop a f s).bind (fun t => forLoop b (fun i => f (a + i)) t) := by
  induction b with
  | zero => simp [forLoop]
  | succ b ih =>
    have e : a + (b + 1) = (a + b) + 1 := rfl
    rw [e]
    simp only [forLoop]
    rw [ih]
    cases forLoop a f s <;> rfl

/-- The two nested loops over `y` and `x` visit the positions `0 .. height*width - 1`
in increasing order. -/
theorem forLoop_nested {σ : Type} (f : Nat → σ → Option σ) (w h : Nat) (s : σ) :
    forLoop h (fun y t => forLoop w (fun x u => f (y * w + x) u) t) s = forLoop (h * w) f s := by
  induction h with
  | zero => simp [forLoop]
  | succ h ih =>
    have e : (h + 1) * w = h * w + w := Nat.succ_mul h w
    rw [e, forLoop_add f (h * w) w s, ← ih]
    rfl

theorem forLoop_none {σ : Type} (f : Nat → σ → Option σ) (a b : Nat) (s : σ)
    (h : forLoop a f s = none) : forLoop (a + b) f s = none := by
  rw [forLoop_add, h]
  rfl

theorem scan_loop (host : Endian) (data : List Cell) (s : extrema) :
    ∀ n, n ≤ data.length →
      forLoop n (scanStep host data) s
        = some (((data.take n).map decodeBE).foldl updateExtrema s) := by
  intro n
  induction n with
  | zero => intro _; simp [forLoop]
  | succ n ih =>
    intro hn
    have hlt : n < data.length := hn
    simp only [forLoop]
    rw [ih (Nat.le_of_lt hlt)]
    simp only [Option.bind, scanStep, List.getElem?_eq_getElem hlt, ntohs_load16]
    rw [List.take_succ, List.getElem?_eq_getElem hlt]
    simp only [Option.toList, List.map_append, List.foldl_append, List.map_cons, List.map_nil,
      List.foldl_cons, List.foldl_nil]

theorem findMinMax_eq (host : Endian) (data : List Cell) (width height : Nat)
    (hlen : data.length = width * height) :
    findMinMax host data width height
      = some ((data.map decodeBE).foldl updateExtrema ⟨UINT16_MAX, 0⟩) := by
  unfold findMinMax
  rw [forLoop_nested (scanStep host data) width height]
  rw [scan_loop host data _ (height * width) (by rw [hlen, Nat.mul_comm])]
  rw [List.take_of_length_le (by rw [hlen, Nat.mul_comm])]

theorem analyze_eq_findMinMax (host : Endian) (data : List Cell) (width height : Nat) :
    analyze host data width height = findMinMax host data width height := rfl

theorem fumble_eq_adjustMinMax (host : Endian) (res : extrema) (data : List Cell)
    (width height : Nat) :
    fumble host res data width height = adjustMinMax host res data width height := rfl

theorem adjust_loop (host : Endian) (res : extrema) (scale : F32) (data : List Cell)
    (val : Cell → Nat)
    (hval : ∀ c ∈ data, adjustValue host res scale c = some (val c)) :
    ∀ n, n ≤ data.length →
      forLoop n (adjustStep host res scale) data
        = some ((data.take n).map (fun c => store16 host (htons host (val c)))
            ++ data.drop n) := by
  intro n
  induction n with
  | zero => intro _; simp [forLoop]
  | succ n ih =>
    intro hn
    have hlt : n < data.length := hn
    simp only [forLoop]
    rw [ih (Nat.le_of_lt hlt)]
    have hlen : ((data.take n).map (fun c => store16 host (htons host (val c)))).length = n := by
      simp [Nat.min_eq_left (Nat.le_of_lt hlt)]
    have hget : ((data.take n).map (fun c => store16 host (htons host (val c)))
        ++ data.drop n)[n]? = some data[n] := by
      rw [List.getElem?_append_right (by omega), hlen, Nat.sub_self,
        List.drop_eq_getElem_cons hlt, List.getElem?_cons_zero]
    simp only [Option.bind, adjustStep, hget, hval _ (List.getElem_mem hlt)]
    rw [List.set_append_right _ _ (by omega), hlen, Nat.sub_self,
      List.drop_eq_getElem_cons hlt, List.set_cons_zero, List.take_succ,
      List.getElem?_eq_getElem hlt]
    simp only [Option.toList, List.map_append, List.map_cons, List.map_nil, List.append_assoc,
      List.singleton_append]

theorem adjustMinMax_eq (host : Endian) (res : extrema) (data : List Cell)
    (width height : Nat) (val : Cell → Nat)
    (hlen : data.length = width * height)
    (hval : ∀ c ∈ data, adjustValue host res (scaleOf res) c = some (val c)) :
    adjustMinMax host res data width height
      = some (data.map (fun c => store16 host (htons host (val c)))) := by
  unfold adjustMinMax
  simp only
  rw [forLoop_nested (adjustStep host res (scaleOf res)) width height]
  rw [adjust_loop host res _ data val hval (height * width) (by rw [hlen, Nat.mul_comm])]
  rw [List.take_of_length_le (by rw [hlen, Nat.mul_comm]),
    List.drop_of_length_le (by rw [hlen, Nat.mul_comm])]
  simp

/-- When the first pixel's conversion is undefined, so is the whole adjustment. -/
theorem adjustMinMax_undefined (host : Endian) (res : extrema) (data : List Cell)
    (width height : Nat) (hw : 0 < width) (hh : 0 < height)
    (h0 : ∀ c, data[0]? = some c → adjustValue host res (scaleOf res) c = none) :
    adjustMinMax host res data width height = none := by
  unfold adjustMinMax
  simp only
  rw [forLoop_nested (adjustStep host res (scaleOf res)) width height]
  have hpos : 0 < height * width := Nat.mul_pos hh hw
  obtain ⟨k, hk⟩ := Nat.exists_eq_add_of_le hpos
  have e : height * width = 1 + k := by omega
  rw [e]
  apply forLoop_none
  simp only [forLoop, Option.bind, adjustStep]
  cases hd : data[0]? with
  | none => rfl
  | some c => simp only [h0 c hd]

/-! ## The extrema scan -/

theorem foldl_updateExtrema (vs : List Nat) :
    ∀ s : extrema,
      (vs.foldl updateExtrema s).min ≤ s.min ∧ s.max ≤ (vs.foldl updateExtrema s).max ∧
      (∀ v ∈ vs, (vs.foldl updateExtrema s).min ≤ v ∧ v ≤ (vs.foldl updateExtrema s).max) ∧
      ((vs.foldl updateExtrema s).min = s.min ∨ (vs.foldl updateExtrema s).min ∈ vs) ∧
      ((vs.foldl updateExtrema s).max = s.max ∨ (vs.foldl updateExtrema s).max ∈ vs) := by
  induction vs with
  | nil => intro s; simp
  | cons v vs ih =>
    intro s
    obtain ⟨h1, h2, h3, h4, h5⟩ := ih (updateExtrema s v)
    have hmin : (updateExtrema s v).min = if v < s.min then v else s.min := rfl
    have hmax : (updateExtrema s v).max = if v > s.max then v else s.max := rfl
    simp only [List.foldl_cons, List.mem_cons]
    refine ⟨?_, ?_, ?_, ?_, ?_⟩
    · rw [hmin] at h1; split_ifs at h1 <;> omega
    · rw [hmax] at h2; split_ifs at h2 <;> omega
    · intro u hu
      rcases hu with hu | hu
      · rw [hmin] at h1; rw [hmax] at h2
        subst hu
        split_ifs at h1 h2 <;> omega
      · exact h3 u hu
    · rcases h4 with h4 | h4
      · rw [h4, hmin]
        split_ifs
        · exact Or.inr (Or.inl rfl)
        · exact Or.inl rfl
      · exact Or.inr (Or.inr h4)
    · rcases h5 with h5 | h5
      · rw [h5, hmax]
        split_ifs
        · exact Or.inr (Or.inl rfl)
        · exact Or.inl rfl
      · exact Or.inr (Or.inr h5)

/-- What the scan computes on a non-empty buffer of the declared size. -/
theorem findMinMax_spec (host : Endian) (data : List Cell) (width height : Nat)
    (hw : 0 < width) (hh : 0 < height) (hlen : data.length = width * height) :
    ∃ res, findMinMax host data width height = some res ∧
      (∀ c ∈ data, res.min ≤ decodeBE c ∧ decodeBE c ≤ res.max) ∧
      (∃ c ∈ data, decodeBE c = res.min) ∧ (∃ c ∈ data, decodeBE c = res.max) := by
  refine ⟨_, findMinMax_eq host data width height hlen, ?_⟩
  obtain ⟨_, _, h3, h4, h5⟩ := foldl_updateExtrema (data.map decodeBE) ⟨UINT16_MAX, 0⟩
  have hpos : 0 < data.length := by rw [hlen]; exact Nat.mul_pos hw hh
  obtain ⟨c0, hc0⟩ := List.exists_mem_of_length_pos hpos
  have hb := h3 (decodeBE c0) (List.mem_map_of_mem _ hc0)
  have hlt := decodeBE_lt c0
  refine ⟨?_, ?_, ?_⟩
  · intro c hc
    exact h3 (decodeBE c) (List.mem_map_of_mem _ hc)
  · rcases h4 with h4 | h4
    · refine ⟨c0, hc0, ?_⟩
      have : (⟨UINT16_MAX, 0⟩ : extrema).min = 65535 := rfl
      rw [this] at h4
      omega
    · obtain ⟨c, hc, hv⟩ := List.mem_map.mp h4
      exact ⟨c, hc, hv⟩
  · rcases h5 with h5 | h5
    · refine ⟨c0, hc0, ?_⟩
      have : (⟨UINT16_MAX, 0⟩ : extrema).max = 0 := rfl
      rw [this] at h5
      omega
    · obtain ⟨c, hc, hv⟩ := List.mem_map.mp h5
      exact ⟨c, hc, hv⟩

/-- C1: on every non-empty `width x height` buffer of big-endian samples, `findMinMax`
(and its duplicate `analyze`) stores a pair `(min, max)` such that every decoded sample
lies between them, each of the two is the decoded value of some sample, and
`min ≤ max`. -/
theorem findMinMax_extrema (host : Endian) (data : List Cell) (width height : Nat)
    (hw : 0 < width) (hh : 0 < height) (hlen : data.length = width * height) :
    ∃ res, findMinMax host data width height = some res ∧
      analyze host data width height = some res ∧
      (∀ c ∈ data, res.min ≤ decodeBE c ∧ decodeBE c ≤ res.max) ∧
      (∃ c ∈ data, decodeBE c = res.min) ∧ (∃ c ∈ data, decodeBE c = res.max) ∧
      res.min ≤ res.max := by
  obtain ⟨res, h1, h2, h3, h4⟩ := findMinMax_spec host data width height hw hh hlen
  refine ⟨res, h1, h1, h2, h3, h4, ?_⟩
  obtain ⟨c, hc, _⟩ := h3
  have := h2 c hc
  omega

theorem findMinMax_extrema_witness :
    0 < 3 ∧ 0 < 1 ∧
    ∃ res, findMinMax Endian.little [(0, 0x10), (0, 0xF0), (0, 0x80)] 3 1 = some res ∧
      analyze Endian.little [(0, 0x10), (0, 0xF0), (0, 0x80)] 3 1 = some res ∧
      (∀ c ∈ [((0, 0x10) : Cell), (0, 0xF0), (0, 0x80)],
        res.min ≤ decodeBE c ∧ decodeBE c ≤ res.max) ∧
      (∃ c ∈ [((0, 0x10) : Cell), (0, 0xF0), (0, 0x80)], decodeBE c = res.min) ∧
      (∃ c ∈ [((0, 0x10) : Cell), (0, 0xF0), (0, 0x80)], decodeBE c = res.max) ∧
      res.min ≤ res.max :=
  ⟨by decide, by decide,
    findMinMax_extrema Endian.little [(0, 0x10), (0, 0xF0), (0, 0x80)] 3 1
      (by decide) (by decide) rfl⟩

/-! ## The adjustment after the scan -/

/-- On a buffer whose samples are not all equal, the scan followed by the adjustment
is defined, and the adjustment replaces every sample by the big-endian encoding of its
scaled value. -/
theorem adjust_pipeline (host : Endian) (data : List Cell) (width height : Nat)
    (hw : 0 < width) (hh : 0 < height) (hlen : data.length = width * height)
    (hne : ∃ a ∈ data, ∃ b ∈ data, decodeBE a ≠ decodeBE b) :
    ∃ res, findMinMax host data width height = some res ∧
      res.min < res.max ∧ res.max ≤ 65535 ∧
      (∀ c ∈ data, res.min ≤ decodeBE c ∧ decodeBE c ≤ res.max) ∧
      adjustMinMax host res data width height
        = some (data.map
            (fun c => encodeBE (scaled (res.max - res.min) (decodeBE c - res.min)))) := by
  obtain ⟨res, h1, h2, _, h4⟩ := findMinMax_spec host data width height hw hh hlen
  obtain ⟨a, ha, b, hb, hab⟩ := hne
  have hlt : res.min < res.max := by
    have := h2 a ha
    have := h2 b hb
    omega
  have hmax : res.max ≤ 65535 := by
    obtain ⟨c, _, hc⟩ := h4
    have := decodeBE_lt c
    omega
  refine ⟨res, h1, hlt, hmax, h2, ?_⟩
  rw [adjustMinMax_eq host res data width height
    (fun c => scaled (res.max - res.min) (decodeBE c - res.min)) hlen
    (fun c hc => adjustValue_eq host res c hlt hmax (h2 c hc).1 (h2 c hc).2)]
  congr 1
  apply List.map_congr_left
  intro c hc
  apply store16_htons
  have := scaled_le (res.max - res.min) (decodeBE c - res.min) (by omega) (by omega)
    (by have := h2 c hc; omega)
  omega

theorem scaleMag_full : scaleMag 65535 = F32.one := by
  unfold scaleMag
  have h := roundMag_exact 1 149 (65535 * F32.one) (by norm_num)
    (Nat.mul_pos (by decide) one_pos)
  rw [← one_eq] at h
  have e : 1 * F32.one * (65535 * F32.one) = 65535 * F32.one * F32.one := by ring
  rw [e] at h
  rw [h, Nat.one_mul]

/-- With the full range the scale factor is `1.0` and scaling changes nothing. -/
theorem scaled_full (d : Nat) (hd : d ≤ 65535) : scaled 65535 d = d := by
  unfold scaled prodMag
  rw [scaleMag_full]
  have h := roundMag_exact d 149 F32.one (by omega) one_pos
  rw [← one_eq] at h
  rw [h]
  exact Nat.mul_div_cancel d one_pos

/-- Extent of the shortfall at the top of the range: on every non-empty buffer whose
samples are not all equal, the scan followed by the adjustment is defined, every
position whose sample decoded to `min` then holds the big-endian encoding of 0, and
the value left at a position whose sample decoded to `max` is never below 65534. -/
theorem adjustMinMax_extremes (host : Endian) (data : List Cell) (width height : Nat)
    (hw : 0 < width) (hh : 0 < height) (hlen : data.length = width * height)
    (hne : ∃ a ∈ data, ∃ b ∈ data, decodeBE a ≠ decodeBE b) :
    ∃ res out, findMinMax host data width height = some res ∧
      adjustMinMax host res data width height = some out ∧
      out.length = data.length ∧
      ∀ (i : Nat) (c : Cell), data[i]? = some c →
        ∃ o, out[i]? = some o ∧
          (decodeBE c = res.min → o = encodeBE 0) ∧
          (decodeBE c = res.max → o = encodeBE 65534 ∨ o = encodeBE 65535) := by
  obtain ⟨res, h1, hlt, hmax, _, h3⟩ :=
    adjust_pipeline host data width height hw hh hlen hne
  refine ⟨res, _, h1, h3, by simp, ?_⟩
  intro i c hc
  refine ⟨encodeBE (scaled (res.max - res.min) (decodeBE c - res.min)), ?_, ?_, ?_⟩
  · rw [List.getElem?_map, hc]
    rfl
  · intro hmin
    rw [hmin, Nat.sub_self, scaled_zero]
  · intro hmx
    rw [hmx]
    have hge := scaled_top_ge (res.max - res.min) (by omega) (by omega)
    have hle := scaled_le (res.max - res.min) (res.max - res.min) (by omega) (by omega)
      (Nat.le_refl _)
    have : scaled (res.max - res.min) (res.max - res.min) = 65534 ∨
        scaled (res.max - res.min) (res.max - res.min) = 65535 := by omega
    rcases this with h | h
    · exact Or.inl (by rw [h])
    · exact Or.inr (by rw [h])

theorem adjustMinMax_extremes_witness :
    0 < 2 ∧ 0 < 1 ∧
    ∃ res out, findMinMax Endian.little [(0, 0), (0, 11)] 2 1 = some res ∧
      adjustMinMax Endian.little res [(0, 0), (0, 11)] 2 1 = some out ∧
      out.length = [((0, 0) : Cell), (0, 11)].length ∧
      ∀ (i : Nat) (c : Cell), [((0, 0) : Cell), (0, 11)][i]? = some c →
        ∃ o, out[i]? = some o ∧
          (decodeBE c = res.min → o = encodeBE 0) ∧
          (decodeBE c = res.max → o = encodeBE 65534 ∨ o = encodeBE 65535) :=
  ⟨by decide, by decide,
    adjustMinMax_extremes Endian.little [(0, 0), (0, 11)] 2 1 (by decide) (by decide) rfl
      ⟨(0, 0), by simp, (0, 11), by simp, by decide⟩⟩

set_option maxRecDepth 100000 in
/-- C2: the code at the failing input. For the two-sample buffer `[0x0000, 0x000B]`
the scan yields `min = 0`, `max = 11`, the second sample decodes to `max`, and the
adjustment leaves 65534 (bytes `FF FE`) there, not the 65535 that scaling to full
depth requires: the binary32 quotient `65535.0f / 11.0f` is rounded down, so the
product `11.0f * scale` is `65534.996` and is truncated. -/
theorem adjustMinMax_max_not_full :
    findMinMax Endian.little [(0, 0), (0, 11)] 2 1 = some ⟨0, 11⟩ ∧
    decodeBE (0, 11) = 11 ∧
    adjustMinMax Endian.little ⟨0, 11⟩ [(0, 0), (0, 11)] 2 1 = some [(0, 0), (0xFF, 0xFE)] ∧
    decodeBE (0xFF, 0xFE) = 65534 ∧ decodeBE (0xFF, 0xFE) ≠ 65535 := by
  decide

/-- C3: on every non-empty buffer whose samples all decode to the same value `v`, the
scan yields `min = max = v`, the divisor `range` is `0.0`, the scale factor is the
quotient `65535.0f / 0.0f = +inf`, and the result of the adjustment is undefined: no
buffer of zeros is produced. -/
theorem adjustMinMax_flat (host : Endian) (data : List Cell) (width height v : Nat)
    (hw : 0 < width) (hh : 0 < height) (hlen : data.length = width * height)
    (hflat : ∀ c ∈ data, decodeBE c = v) :
    findMinMax host data width height = some ⟨v, v⟩ ∧
    rangeOf ⟨v, v⟩ = F32.fin false 0 ∧
    scaleOf ⟨v, v⟩ = F32.inf false ∧
    adjustMinMax host ⟨v, v⟩ data width height = none ∧
    adjustMinMax host ⟨v, v⟩ data width height
      ≠ some (List.replicate (width * height) (encodeBE 0)) := by
  obtain ⟨res, h1, _, h3, h4⟩ := findMinMax_spec host data width height hw hh hlen
  obtain ⟨c3, hc3, e3⟩ := h3
  obtain ⟨c4, hc4, e4⟩ := h4
  have hmin : res.min = v := by rw [← e3]; exact hflat c3 hc3
  have hmax : res.max = v := by rw [← e4]; exact hflat c4 hc4
  have hres : res = ⟨v, v⟩ := by
    cases res
    simp only at hmin hmax
    rw [hmin, hmax]
  have hv : v ≤ 65535 := by
    have := decodeBE_lt c3
    have := hflat c3 hc3
    omega
  have hnone : adjustMinMax host ⟨v, v⟩ data width height = none :=
    adjustMinMax_undefined host ⟨v, v⟩ data width height hw hh
      (fun c _ => adjustValue_flat host ⟨v, v⟩ c rfl hv)
  refine ⟨by rw [h1, hres], ?_, scaleOf_flat ⟨v, v⟩ rfl hv, hnone, by rw [hnone]; simp⟩
  have := rangeOf_eq ⟨v, v⟩ (Nat.le_refl v) hv
  simpa using this

theorem adjustMinMax_flat_witness :
    0 < 160 ∧ 0 < 120 ∧
    findMinMax Endian.little (List.replicate 19200 (0x12, 0x34)) 160 120
      = some ⟨0x1234, 0x1234⟩ ∧
    rangeOf ⟨0x1234, 0x1234⟩ = F32.fin false 0 ∧
    scaleOf ⟨0x1234, 0x1234⟩ = F32.inf false ∧
    adjustMinMax Endian.little ⟨0x1234, 0x1234⟩ (List.replicate 19200 (0x12, 0x34)) 160 120
      = none ∧
    adjustMinMax Endian.little ⟨0x1234, 0x1234⟩ (List.replicate 19200 (0x12, 0x34)) 160 120
      ≠ some (List.replicate (160 * 120) (encodeBE 0)) :=
  ⟨by decide, by decide,
    adjustMinMax_flat Endian.little (List.replicate 19200 (0x12, 0x34)) 160 120 0x1234
      (by decide) (by decide) (List.length_replicate 19200 _)
      (fun c hc => by rw [List.eq_of_mem_replicate hc]; rfl)⟩

theorem prodMag_lt (r d : Nat) (hr : 0 < r) (hr2 : r ≤ 65535) (hd : d ≤ r) :
    prodMag r d < 65536 * F32.one := by
  have hP := prodMag_le r d hr hr2 hd
  have ho : F32.one = 2 * 2 ^ 148 := by rw [one_eq]; rfl
  rw [ho]
  have hH : 0 < (2 : Nat) ^ 148 := Nat.pow_pos (by decide)
  generalize (2 : Nat) ^ 148 = H at hP hH ⊢
  omega

/-- The binary32 product `(float) d * scale` for a difference `d` within the range. -/
theorem mul_scale_eq (res : extrema) (d : Nat)
    (h : res.min < res.max) (hmax : res.max ≤ 65535) (hd : d ≤ res.max - res.min) :
    F32.mul (F32.ofInt (d : Int)) (scaleOf res)
      = F32.fin false (prodMag (res.max - res.min) d) := by
  have hP := prodMag_lt (res.max - res.min) d (by omega) (by omega) hd
  have hov : ¬ F32.overflow ≤ prodMag (res.max - res.min) d :=
    lt_overflow _ (by omega)
  rw [scaleOf_eq res h hmax, ofInt_natCast _ (by omega)]
  simp only [F32.mul, F32.ofRat, Bool.xor_self]
  have : roundMag (d * F32.one * scaleMag (res.max - res.min)) F32.one
      = prodMag (res.max - res.min) d := rfl
  rw [this]
  simp only [hov, if_false]

set_option maxRecDepth 100000 in
/-- C4 (counterexample): for the buffer `[0x0010, 0x00F0, 0x0080]` the rounded value of
`112 * 65535 / 224 = 32767.5` is 32768, and the adjustment does not produce the samples
`[0x0000, 0xFFFF, 32768]`. -/
theorem scenario_third_sample_not_rounded :
    specRound ((0x0080 - 0x0010) * 65535) (0x00F0 - 0x0010) = 32768 ∧
    roundNE ((0x0080 - 0x0010) * 65535) (0x00F0 - 0x0010) = 32768 ∧
    adjustMinMax Endian.little ⟨0x0010, 0x00F0⟩ [(0, 0x10), (0, 0xF0), (0, 0x80)] 3 1
      ≠ some [encodeBE 0x0000, encodeBE 0xFFFF,
          encodeBE (specRound ((0x0080 - 0x0010) * 65535) (0x00F0 - 0x0010))] := by
  decide

set_option maxRecDepth 100000 in
/-- C4 (as amended): for the buffer `[0x0010, 0x00F0, 0x0080]` with width 3 and
height 1 the scan yields `min = 0x0010`, `max = 0x00F0`, and the adjustment yields the
big-endian samples `[0x0000, 0xFFFF, 0x7FFF]`: the third is 32767, the integral part of
`112 * 65535 / 224 = 32767.5`. -/
theorem scenario_three_samples (host : Endian) :
    findMinMax host [(0, 0x10), (0, 0xF0), (0, 0x80)] 3 1 = some ⟨0x0010, 0x00F0⟩ ∧
    adjustMinMax host ⟨0x0010, 0x00F0⟩ [(0, 0x10), (0, 0xF0), (0, 0x80)] 3 1
      = some [encodeBE 0x0000, encodeBE 0xFFFF,
          encodeBE ((0x0080 - 0x0010) * 65535 / (0x00F0 - 0x0010))] ∧
    (0x0080 - 0x0010) * 65535 / (0x00F0 - 0x0010) = 32767 ∧
    encodeBE 32767 = (0x7F, 0xFF) := by
  cases host <;> decide

/-- C5: for every buffer whose extrema, as computed by `findMinMax`, are exactly
`min = 0` and `max = 65535`, the adjustment with those extrema returns the buffer with
every byte unchanged, so a further scan yields the same extrema. -/
theorem adjustMinMax_full_range_id (host : Endian) (data : List Cell) (width height : Nat)
    (hlen : data.length = width * height)
    (hres : findMinMax host data width height = some ⟨0, 65535⟩) :
    adjustMinMax host ⟨0, 65535⟩ data width height = some data ∧
    fumble host ⟨0, 65535⟩ data width height = some data ∧
    (adjustMinMax host ⟨0, 65535⟩ data width height).bind
        (fun out => findMinMax host out width height) = some ⟨0, 65535⟩ := by
  have hval : ∀ c ∈ data,
      adjustValue host ⟨0, 65535⟩ (scaleOf ⟨0, 65535⟩) c = some (decodeBE c) := by
    intro c _
    have hc := decodeBE_lt c
    have h := adjustValue_eq host ⟨0, 65535⟩ c (by decide) (Nat.le_refl _)
      (Nat.zero_le _) (by simp only; omega)
    simp only [Nat.sub_zero] at h
    rw [h, scaled_full _ (by omega)]
  have hid : adjustMinMax host ⟨0, 65535⟩ data width height = some data := by
    rw [adjustMinMax_eq host ⟨0, 65535⟩ data width height decodeBE hlen hval]
    congr 1
    conv_rhs => rw [← List.map_id data]
    apply List.map_congr_left
    intro c _
    rw [store16_htons host _ (decodeBE_lt c), encodeBE_decodeBE]
    rfl
  refine ⟨hid, hid, ?_⟩
  rw [hid]
  exact hres

theorem adjustMinMax_full_range_id_witness :
    adjustMinMax Endian.little ⟨0, 65535⟩ [(0, 0), (0xFF, 0xFF), (0x12, 0x34)] 3 1
      = some [(0, 0), (0xFF, 0xFF), (0x12, 0x34)] ∧
    fumble Endian.little ⟨0, 65535⟩ [(0, 0), (0xFF, 0xFF), (0x12, 0x34)] 3 1
      = some [(0, 0), (0xFF, 0xFF), (0x12, 0x34)] ∧
    (adjustMinMax Endian.little ⟨0, 65535⟩ [(0, 0), (0xFF, 0xFF), (0x12, 0x34)] 3 1).bind
        (fun out => findMinMax Endian.little out 3 1) = some ⟨0, 65535⟩ :=
  adjustMinMax_full_range_id Endian.little [(0, 0), (0xFF, 0xFF), (0x12, 0x34)] 3 1 rfl
    (by decide)

/-- C10: on every non-empty buffer whose samples are not all equal, the adjustment with
the extrema of the scan is order-preserving on decoded values; no sample lies below
`min`, so the 16-bit subtraction does not wrap, and every binary32 product is below
65536, so its conversion to `uint16_t` is the plain truncation. -/
theorem adjustMinMax_monotone (host : Endian) (data : List Cell) (width height : Nat)
    (hw : 0 < width) (hh : 0 < height) (hlen : data.length = width * height)
    (hne : ∃ a ∈ data, ∃ b ∈ data, decodeBE a ≠ decodeBE b) :
    ∃ res out, findMinMax host data width height = some res ∧
      adjustMinMax host res data width height = some out ∧
      (∀ c ∈ data,
        res.min ≤ decodeBE c ∧
        wrap16 ((decodeBE c : Int) - (res.min : Int)) = decodeBE c - res.min ∧
        F32.mul (F32.ofInt ((decodeBE c - res.min : Nat) : Int)) (scaleOf res)
          = F32.fin false (prodMag (res.max - res.min) (decodeBE c - res.min)) ∧
        prodMag (res.max - res.min) (decodeBE c - res.min) < 65536 * F32.one ∧
        adjustValue host res (scaleOf res) c
          = some (prodMag (res.max - res.min) (decodeBE c - res.min) / F32.one)) ∧
      ∀ (i j : Nat) (a b oa ob : Cell),
        data[i]? = some a → data[j]? = some b → out[i]? = some oa → out[j]? = some ob →
        decodeBE a ≤ decodeBE b → decodeBE oa ≤ decodeBE ob := by
  obtain ⟨res, h1, hlt, hmax, h2, h3⟩ :=
    adjust_pipeline host data width height hw hh hlen hne
  refine ⟨res, _, h1, h3, ?_, ?_⟩
  · intro c hc
    have hb := h2 c hc
    have hd : decodeBE c - res.min ≤ res.max - res.min := by omega
    exact ⟨hb.1, wrap16_sub _ _ hb.1 (decodeBE_lt c), mul_scale_eq res _ hlt hmax hd,
      prodMag_lt _ _ (by omega) (by omega) hd,
      adjustValue_eq host res c hlt hmax hb.1 hb.2⟩
  · intro i j a b oa ob ha hb hoa hob hab
    rw [List.getElem?_map, ha] at hoa
    rw [List.getElem?_map, hb] at hob
    simp only [Option.map_some', Option.some.injEq] at hoa hob
    have hma := h2 a (List.getElem?_mem ha)
    have hmb := h2 b (List.getElem?_mem hb)
    have hsa := scaled_le (res.max - res.min) (decodeBE a - res.min) (by omega) (by omega)
      (by omega)
    have hsb := scaled_le (res.max - res.min) (decodeBE b - res.min) (by omega) (by omega)
      (by omega)
    rw [← hoa, ← hob, decodeBE_encodeBE _ (by omega), decodeBE_encodeBE _ (by omega)]
    exact scaled_mono _ _ _ (by omega)

theorem adjustMinMax_monotone_witness :
    0 < 3 ∧ 0 < 1 ∧
    ∃ res out, findMinMax Endian.big [(0, 0x10), (0, 0xF0), (0, 0x80)] 3 1 = some res ∧
      adjustMinMax Endian.big res [(0, 0x10), (0, 0xF0), (0, 0x80)] 3 1 = some out ∧
      (∀ c ∈ [((0, 0x10) : Cell), (0, 0xF0), (0, 0x80)],
        res.min ≤ decodeBE c ∧
        wrap16 ((decodeBE c : Int) - (res.min : Int)) = decodeBE c - res.min ∧
        F32.mul (F32.ofInt ((decodeBE c - res.min : Nat) : Int)) (scaleOf res)
          = F32.fin false (prodMag (res.max - res.min) (decodeBE c - res.min)) ∧
        prodMag (res.max - res.min) (decodeBE c - res.min) < 65536 * F32.one ∧
        adjustValue Endian.big res (scaleOf res) c
          = some (prodMag (res.max - res.min) (decodeBE c - res.min) / F32.one)) ∧
      ∀ (i j : Nat) (a b oa ob : Cell),
        [((0, 0x10) : Cell), (0, 0xF0), (0, 0x80)][i]? = some a →
        [((0, 0x10) : Cell), (0, 0xF0), (0, 0x80)][j]? = some b →
        out[i]? = some oa → out[j]? = some ob →
        decodeBE a ≤ decodeBE b → decodeBE oa ≤ decodeBE ob :=
  ⟨by decide, by decide,
    adjustMinMax_monotone Endian.big [(0, 0x10), (0, 0xF0), (0, 0x80)] 3 1
      (by decide) (by decide) rfl
      ⟨(0, 0x10), by simp, (0, 0xF0), by simp, by decide⟩⟩

/-! ## Reading the container -/

theorem fread_fst (inp : FILE) (size : Nat) :
    ∃ rd, rd ≤ size ∧ rd ≤ inp.rest.length ∧
      (fread inp size).1 = inp.rest.take rd ∧ (fread inp size).2.rest = inp.rest.drop rd ∧
      ((∀ k, inp.fault = some k → size ≤ k) → size ≤ inp.rest.length → rd = size) := by
  cases hf : inp.fault with
  | none =>
    refine ⟨Nat.min size inp.rest.length, Nat.min_le_left _ _, Nat.min_le_right _ _, ?_, ?_, ?_⟩
    · simp [fread, hf]
    · simp [fread, hf]
    · intro _ hle
      exact Nat.min_eq_left hle
  | some k =>
    refine ⟨Nat.min size (Nat.min k inp.rest.length), Nat.min_le_left _ _,
      Nat.le_trans (Nat.min_le_right _ _) (Nat.min_le_right _ _), ?_, ?_, ?_⟩
    · simp [fread, hf]
    · simp [fread, hf]
    · intro hk hle
      have := hk k rfl
      exact Nat.min_eq_left (Nat.le_min.mpr ⟨this, hle⟩)

/-- Either `readblob` exits with status 1, or it returns the next `size` bytes. -/
theorem readblob_cases (inp : FILE) (size : Nat) :
    readblob inp size = Run.exit 1 ∨
    (size ≤ inp.rest.length ∧
      ∃ inp2, readblob inp size = Run.ret (inp.rest.take size, inp2) ∧
        inp2.rest = inp.rest.drop size) := by
  obtain ⟨rd, h1, h2, h3, h4, _⟩ := fread_fst inp size
  by_cases hrd : rd = size
  · right
    subst hrd
    refine ⟨h2, (fread inp rd).2, ?_, h4⟩
    have hl : (fread inp rd).1.length = rd := by
      rw [h3, List.length_take]
      exact Nat.min_eq_left h2
    unfold readblob
    simp only [hl, ne_eq, not_true_eq_false, if_false]
    rw [← h3]
  · left
    have hl : (fread inp size).1.length ≠ size := by
      rw [h3, List.length_take, Nat.min_eq_left h2]
      exact hrd
    unfold readblob
    simp only [hl, ne_eq, not_false_eq_true, if_true]

/-- C6: when the source still holds at least `size` bytes (and the device does not fail
before delivering them) `readblob` returns a buffer holding exactly the next `size`
bytes in order; when it holds fewer, `readblob` never returns and the run ends with
status 1; whatever it returns to its caller is a full buffer of `size` bytes. -/
theorem readblob_all_or_nothing (inp : FILE) (size : Nat) :
    ((∀ k, inp.fault = some k → size ≤ k) → size ≤ inp.rest.length →
      ∃ inp2, readblob inp size = Run.ret (inp.rest.take size, inp2) ∧
        (inp.rest.take size).length = size ∧ inp2.rest = inp.rest.drop size) ∧
    (inp.rest.length < size → readblob inp size = Run.exit 1) ∧
    (∀ buf inp2, readblob inp size = Run.ret (buf, inp2) →
      buf.length = size ∧ buf = inp.rest.take size) := by
  refine ⟨?_, ?_, ?_⟩
  · intro hk hle
    obtain ⟨rd, _, h2, h3, h4, h5⟩ := fread_fst inp size
    have hrd := h5 hk hle
    subst hrd
    have hl : (fread inp rd).1.length = rd := by
      rw [h3, List.length_take]
      exact Nat.min_eq_left h2
    refine ⟨(fread inp rd).2, ?_, ?_, h4⟩
    · unfold readblob
      simp only [hl, ne_eq, not_true_eq_false, if_false]
      rw [← h3]
    · rw [List.length_take]
      exact Nat.min_eq_left h2
  · intro hlt
    rcases readblob_cases inp size with h | ⟨hle, _⟩
    · exact h
    · omega
  · intro buf inp2 hret
    rcases readblob_cases inp size with h | ⟨hle, inp3, h3, _⟩
    · rw [h] at hret
      cases hret
    · rw [h3] at hret
      cases hret
      exact ⟨by rw [List.length_take]; exact Nat.min_eq_left hle, rfl⟩

theorem readblob_all_or_nothing_witness :
    (∃ inp2, readblob ⟨[1, 2, 3, 4, 5], none⟩ 3
        = Run.ret (([1, 2, 3, 4, 5] : List Byte).take 3, inp2) ∧
      (([1, 2, 3, 4, 5] : List Byte).take 3).length = 3 ∧
      inp2.rest = ([1, 2, 3, 4, 5] : List Byte).drop 3) ∧
    readblob ⟨[1, 2], none⟩ 3 = Run.exit 1 :=
  ⟨(readblob_all_or_nothing ⟨[1, 2, 3, 4, 5], none⟩ 3).1 (fun _ h => nomatch h) (by decide),
    (readblob_all_or_nothing ⟨[1, 2], none⟩ 3).2.1 (by decide)⟩

/-! ## The driver -/

/-- C7: for every input file shorter than `366 + 38400` bytes, `main` (called with two
arguments on a file that opens) ends with status 1 in one of its two `readblob` calls,
and the call of `writepng` is never made. -/
theorem main_short_input (host : Endian) (inp : FILE) (env : PngEnv)
    (hshort : inp.rest.length < 366 + 38400) :
    ∃ stage, main host 3 (some inp) env = some ⟨1, stage, none⟩ ∧
      (stage = Stage.readHeader ∨ stage = Stage.readImage) := by
  unfold main
  rw [if_neg (fun h => h rfl)]
  dsimp only
  rcases readblob_cases inp 366 with h | ⟨hle, inp1, h1, hrest⟩
  · rw [h]
    exact ⟨Stage.readHeader, rfl, Or.inl rfl⟩
  · rw [h1]
    dsimp only
    rcases readblob_cases inp1 (160 * 120 * 2) with h | ⟨hle2, _, _, _⟩
    · rw [h]
      exact ⟨Stage.readImage, rfl, Or.inr rfl⟩
    · rw [hrest, List.length_drop] at hle2
      omega

theorem main_short_input_witness :
    ∃ stage, main Endian.little 3 (some ⟨List.replicate 400 0, none⟩)
        ⟨true, true, true, false, false⟩ = some ⟨1, stage, none⟩ ∧
      (stage = Stage.readHeader ∨ stage = Stage.readImage) :=
  main_short_input Endian.little ⟨List.replicate 400 0, none⟩ ⟨true, true, true, false, false⟩
    (by rw [List.length_replicate]; decide)

theorem bytesOf_length (l : List Cell) : (bytesOf l).length = 2 * l.length := by
  induction l with
  | nil => rfl
  | cons c cs ih => simp only [bytesOf, List.length_cons, ih]; omega

theorem bytesOf_append (a b : List Cell) : bytesOf (a ++ b) = bytesOf a ++ bytesOf b := by
  induction a with
  | nil => rfl
  | cons c cs ih =>
    show c.1 :: c.2 :: bytesOf (cs ++ b) = c.1 :: c.2 :: (bytesOf cs ++ bytesOf b)
    rw [ih]

theorem cellsOf_bytesOf (l : List Cell) : cellsOf (bytesOf l) = l := by
  induction l with
  | nil => rfl
  | cons c cs ih => simp only [bytesOf, cellsOf, ih]

theorem readblob_ok (inp : FILE) (size : Nat) (hf : inp.fault = none)
    (hle : size ≤ inp.rest.length) :
    readblob inp size = Run.ret (inp.rest.take size, ⟨inp.rest.drop size, none⟩) := by
  have hl : (List.take size inp.rest).length = size := by
    rw [List.length_take]
    exact Nat.min_eq_left hle
  unfold readblob fread
  simp only [hf, Nat.min_eq_left hle, Option.map_none', hl, ne_eq, not_true_eq_false, if_false]

theorem writepng_fopen_fail (env : PngEnv) (data : List Cell) (width height : Nat)
    (hopen : env.fopenOk = false) :
    writepng env data width height = some ⟨-1, false, none⟩ := by
  unfold writepng
  simp only [hopen, Bool.not_false, if_true]

/-- C8 (the failing path): when both reads succeed on an image whose samples are not
all equal and `writepng` cannot open the destination, `writepng` returns -1 without
creating a file, yet `main` ends with status 0. -/
theorem main_ignores_writepng_failure (host : Endian) (hdr : List Byte) (img : List Cell)
    (env : PngEnv) (hhdr : hdr.length = 366) (himg : img.length = 160 * 120)
    (hne : ∃ a ∈ img, ∃ b ∈ img, decodeBE a ≠ decodeBE b) (hopen : env.fopenOk = false) :
    main host 3 (some ⟨hdr ++ bytesOf img, none⟩) env
      = some ⟨0, Stage.finished, some ⟨-1, false, none⟩⟩ := by
  have hb : (bytesOf img).length = 160 * 120 * 2 := by rw [bytesOf_length, himg]
  have h1 : readblob ⟨hdr ++ bytesOf img, none⟩ 366
      = Run.ret (hdr, ⟨bytesOf img, none⟩) := by
    rw [readblob_ok _ 366 rfl (by simp only [List.length_append, hhdr]; omega)]
    rw [List.take_left' hhdr, List.drop_left' hhdr]
  have h2 : readblob ⟨bytesOf img, none⟩ (160 * 120 * 2) = Run.ret (bytesOf img, ⟨[], none⟩) := by
    rw [readblob_ok _ (160 * 120 * 2) rfl (by simp only [hb]; exact Nat.le_refl _)]
    rw [List.take_of_length_le (Nat.le_of_eq hb), List.drop_of_length_le (Nat.le_of_eq hb)]
  obtain ⟨res, hres, _, _, _, hadj⟩ :=
    adjust_pipeline host img 160 120 (by decide) (by decide) himg hne
  have hw : ∀ d, writepng env d 160 120 = some ⟨-1, false, none⟩ :=
    fun d => writepng_fopen_fail env d 160 120 hopen
  unfold main
  rw [if_neg (fun h => h rfl)]
  dsimp only
  rw [h1]
  dsimp only
  rw [h2]
  dsimp only
  rw [cellsOf_bytesOf, hres]
  dsimp only
  rw [hadj]
  dsimp only
  rw [hw]

theorem main_ignores_writepng_failure_witness :
    main Endian.little 3
        (some ⟨List.replicate 366 0 ++ bytesOf ((0, 1) :: List.replicate 19199 (0, 0)), none⟩)
        ⟨false, true, true, false, false⟩
      = some ⟨0, Stage.finished, some ⟨-1, false, none⟩⟩ :=
  main_ignores_writepng_failure Endian.little (List.replicate 366 0)
    ((0, 1) :: List.replicate 19199 (0, 0)) ⟨false, true, true, false, false⟩
    (List.length_replicate _ _)
    (by rw [List.length_cons, List.length_replicate])
    ⟨(0, 1), List.mem_cons_self _ _, (0, 0),
      List.mem_cons_of_mem _ (List.mem_replicate.mpr ⟨by decide, rfl⟩), by decide⟩
    rfl

/-! ## Writing the image -/

theorem rows_loop (data : List Cell) (w : Nat) :
    ∀ n, n * w ≤ data.length →
      forLoop n (rowStep data w) []
        = some ((List.range n).map (fun i => bytesOf ((data.drop (i * w)).take w))) := by
  intro n
  induction n with
  | zero => intro _; rfl
  | succ n ih =>
    intro hn
    have hle : n * w + w ≤ data.length := by rw [← Nat.succ_mul]; exact hn
    simp only [forLoop]
    rw [ih (by omega)]
    simp only [Option.bind, rowStep, if_pos hle]
    rw [List.range_succ, List.map_append]
    rfl

theorem rows_flatten (data : List Cell) (w : Nat) :
    ∀ n, ((List.range n).map (fun i => bytesOf ((data.drop (i * w)).take w))).flatten
      = bytesOf (data.take (n * w)) := by
  intro n
  induction n with
  | zero => simp [bytesOf]
  | succ n ih =>
    rw [List.range_succ, List.map_append, List.flatten_append, ih, Nat.succ_mul,
      List.take_add, bytesOf_append]
    simp

theorem toUInt16_lt (x : F32) (v : Nat) (h : F32.toUInt16 x = some v) : v < 65536 := by
  cases x with
  | fin neg n =>
    simp only [F32.toUInt16] at h
    split_ifs at h with h0 h1 h2
    · cases h; decide
    · cases h; exact h2
  | inf neg => cases h
  | nan => cases h

theorem adjustValue_lt (host : Endian) (res : extrema) (scale : F32) (c : Cell) (v : Nat)
    (h : adjustValue host res scale c = some v) : v < 65536 :=
  toUInt16_lt _ v h

/-- Whenever the adjustment loop is defined, the buffer it leaves holds, position by
position, the big-endian encodings of the values computed for the pixels. -/
theorem adjust_loop_some (host : Endian) (res : extrema) (scale : F32) (orig : List Cell) :
    ∀ n, n ≤ orig.length → ∀ out,
      forLoop n (adjustStep host res scale) orig = some out →
      ∃ vals : List Nat,
        (orig.take n).map (adjustValue host res scale) = vals.map some ∧
        out = vals.map encodeBE ++ orig.drop n := by
  intro n
  induction n with
  | zero =>
    intro _ out h
    simp only [forLoop, Option.some.injEq] at h
    exact ⟨[], by simp, by simp [h]⟩
  | succ n ih =>
    intro hn out h
    have hlt : n < orig.length := hn
    simp only [forLoop] at h
    cases hmid : forLoop n (adjustStep host res scale) orig with
    | none => rw [hmid] at h; cases h
    | some mid =>
      rw [hmid] at h
      obtain ⟨vals, hv, hm⟩ := ih (Nat.le_of_lt hlt) mid hmid
      have hlen : (vals.map encodeBE).length = n := by
        have := congrArg List.length hv
        simp only [List.length_map, List.length_take] at this
        rw [List.length_map, ← this]
        exact Nat.min_eq_left (Nat.le_of_lt hlt)
      have hget : mid[n]? = some orig[n] := by
        rw [hm, List.getElem?_append_right (by omega), hlen, Nat.sub_self,
          List.drop_eq_getElem_cons hlt, List.getElem?_cons_zero]
      simp only [Option.bind, adjustStep, hget] at h
      cases hval : adjustValue host res scale orig[n] with
      | none => rw [hval] at h; cases h
      | some v =>
        rw [hval] at h
        simp only [Option.some.injEq] at h
        refine ⟨vals ++ [v], ?_, ?_⟩
        · rw [List.take_succ, List.getElem?_eq_getElem hlt]
          simp only [Option.toList, List.map_append, List.map_cons, List.map_nil, hv, hval]
        · rw [← h, hm, List.set_append_right _ _ (by omega), hlen, Nat.sub_self,
            List.drop_eq_getElem_cons hlt, List.set_cons_zero,
            store16_htons host v (adjustValue_lt host res scale _ v hval)]
          simp only [List.map_append, List.map_cons, List.map_nil, List.append_assoc,
            List.singleton_append]

theorem adjustMinMax_some (host : Endian) (res : extrema) (orig data : List Cell)
    (width height : Nat) (hlen : orig.length = width * height)
    (h : adjustMinMax host res orig width height = some data) :
    ∃ vals : List Nat,
      orig.map (adjustValue host res (scaleOf res)) = vals.map some ∧
      data = vals.map encodeBE := by
  unfold adjustMinMax at h
  simp only at h
  rw [forLoop_nested (adjustStep host res (scaleOf res)) width height] at h
  obtain ⟨vals, hv, hm⟩ := adjust_loop_some host res (scaleOf res) orig (height * width)
    (by rw [hlen, Nat.mul_comm]) data h
  rw [List.take_of_length_le (by rw [hlen, Nat.mul_comm])] at hv
  rw [List.drop_of_length_le (by rw [hlen, Nat.mul_comm]), List.append_nil] at hm
  exact ⟨vals, hv, hm⟩

/-- C9: when the destination opens and libpng builds its structures, `writepng`
declares an image of exactly the given width and height, bit depth 16, grayscale,
not interlaced, and hands the encoder exactly `height` rows, row `i` being the
`2 * width` bytes of the samples `i * width .. i * width + width - 1` unchanged; the
rows concatenated are the bytes of the buffer, and when the buffer is the result of
`adjustMinMax`, row `i` is the big-endian encoding of the values computed for that
row. -/
theorem writepng_rows (env : PngEnv) (data : List Cell) (width height : Nat)
    (hlen : data.length = width * height)
    (hopen : env.fopenOk = true) (hws : env.writeStructOk = true)
    (his : env.infoStructOk = true) (hbe : env.buildError = false) :
    ∃ r call, writepng env data width height = some r ∧ r.handed = some call ∧
      r.created = true ∧ r.ret = (if env.writeError then -1 else 0) ∧
      call.header = ⟨width, height, 16, PNG_COLOR_TYPE_GRAY, PNG_INTERLACE_NONE,
        PNG_COMPRESSION_TYPE_DEFAULT, PNG_FILTER_TYPE_DEFAULT⟩ ∧
      call.rows.length = height ∧
      (∀ i, i < height →
        call.rows[i]? = some (bytesOf ((data.drop (i * width)).take width))) ∧
      (∀ row ∈ call.rows, row.length = 2 * width) ∧
      call.rows.flatten = bytesOf data ∧
      (∀ host res orig, orig.length = width * height →
        adjustMinMax host res orig width height = some data →
        ∃ vals : List Nat,
          orig.map (adjustValue host res (scaleOf res)) = vals.map some ∧
          ∀ i, i < height →
            call.rows[i]?
              = some (bytesOf (((vals.drop (i * width)).take width).map encodeBE))) := by
  have hloop := rows_loop data width height (by rw [hlen, Nat.mul_comm])
  have hrow : ∀ i, i < height →
      ((List.range height).map (fun i => bytesOf ((data.drop (i * width)).take width)))[i]?
        = some (bytesOf ((data.drop (i * width)).take width)) := by
    intro i hi
    rw [List.getElem?_map, List.getElem?_range hi]
    rfl
  have hw : writepng env data width height
      = some ⟨if env.writeError then -1 else 0, true,
          some ⟨⟨width, height, 16, PNG_COLOR_TYPE_GRAY, PNG_INTERLACE_NONE,
            PNG_COMPRESSION_TYPE_DEFAULT, PNG_FILTER_TYPE_DEFAULT⟩,
            (List.range height).map (fun i => bytesOf ((data.drop (i * width)).take width))⟩⟩ := by
    unfold writepng
    simp only [hopen, hws, his, hbe, hloop, Bool.not_true, Bool.false_eq_true, if_false]
    split_ifs <;> rfl
  refine ⟨_, _, hw, rfl, rfl, rfl, rfl, by simp, hrow, ?_, ?_, ?_⟩
  · intro row hrow
    obtain ⟨i, hi, rfl⟩ := List.mem_map.mp hrow
    have hi2 : i < height := List.mem_range.mp hi
    have : (i + 1) * width ≤ height * width := Nat.mul_le_mul_right _ hi2
    rw [bytesOf_length, List.length_take, List.length_drop, hlen, Nat.mul_comm width height]
    rw [Nat.succ_mul] at this
    rw [Nat.min_eq_left (by omega)]
  · rw [rows_flatten, List.take_of_length_le (by rw [hlen, Nat.mul_comm])]
  · intro host res orig horig hadj
    obtain ⟨vals, hv, hd⟩ := adjustMinMax_some host res orig data width height horig hadj
    refine ⟨vals, hv, ?_⟩
    intro i hi
    rw [hrow i hi, hd, ← List.map_drop, ← List.map_take]

theorem writepng_rows_witness :
    ∃ r call, writepng ⟨true, true, true, false, false⟩
        [(0, 0), (0xFF, 0xFF), (0x7F, 0xFF), (0x12, 0x34)] 2 2 = some r ∧
      r.handed = some call ∧
      r.created = true ∧
      r.ret = (if (⟨true, true, true, false, false⟩ : PngEnv).writeError then -1 else 0) ∧
      call.header = ⟨2, 2, 16, PNG_COLOR_TYPE_GRAY, PNG_INTERLACE_NONE,
        PNG_COMPRESSION_TYPE_DEFAULT, PNG_FILTER_TYPE_DEFAULT⟩ ∧
      call.rows.length = 2 ∧
      (∀ i, i < 2 →
        call.rows[i]? = some (bytesOf
          ((([(0, 0), (0xFF, 0xFF), (0x7F, 0xFF), (0x12, 0x34)] : List Cell).drop (i * 2)).take
            2))) ∧
      (∀ row ∈ call.rows, row.length = 2 * 2) ∧
      call.rows.flatten = bytesOf [(0, 0), (0xFF, 0xFF), (0x7F, 0xFF), (0x12, 0x34)] ∧
      (∀ host res orig, orig.length = 2 * 2 →
        adjustMinMax host res orig 2 2
          = some [(0, 0), (0xFF, 0xFF), (0x7F, 0xFF), (0x12, 0x34)] →
        ∃ vals : List Nat,
          orig.map (adjustValue host res (scaleOf res)) = vals.map some ∧
          ∀ i, i < 2 →
            call.rows[i]?
              = some (bytesOf (((vals.drop (i * 2)).take 2).map encodeBE))) :=
  writepng_rows ⟨true, true, true, false, false⟩
    [(0, 0), (0xFF, 0xFF), (0x7F, 0xFF), (0x12, 0x34)] 2 2 rfl rfl rfl rfl rfl

end Fluke
